import Mathlib

/-!
Shallow embedding of the Time Simulation & Windowing Engine and the
Run-Length State Segmentation algorithm of the s-dash1 dashboard.

Sources embedded:
* src/dashboard/src/hooks/useLiveSimulation.js — dataset normalizer
  (fullData), simulation clock (LIVE and REPLAY ticks), progress
  computation, window slicer with LIVE noise injection;
* src/unnamed/part_002 (GanttChart) — run-length state segmentation.

Modelling conventions:
* JS epoch-millisecond timestamps are integers (ℤ); quantities that the
  code derives by arithmetic on JS numbers and that may be fractional
  (replay virtual time, sensor fields, random draws) are rationals (ℚ).
* The JS stable Array.prototype.sort with a consistent comparator is
  modelled by List.mergeSort, which is a stable sort.
* Local time is identified with UTC: a JS Date's calendar day starts at
  an 86400000-millisecond boundary and setHours replaces the
  hour/minute/second fields, keeping the sub-second milliseconds.
-/

namespace SDash

/-- One timestamped record of the dataset, with the sensor fields that
useLiveSimulation.js reads and perturbs.  `timestamp` is epoch ms. -/
structure SimRecord where
  timestamp : ℤ
  pct_lying : ℚ
  pct_standing : ℚ
  pct_walking : ℚ
  pct_eating : ℚ
  neck_temp_c : ℚ
  activity_index : ℚ
  heat_index : ℚ
  gps_lat : ℚ
  gps_long : ℚ
deriving DecidableEq

instance : Inhabited SimRecord := ⟨⟨0, 0, 0, 0, 0, 0, 0, 0, 0, 0⟩⟩

/-- The sort key of `[...inputData].sort((a, b) => new Date(a.timestamp) - new Date(b.timestamp))`:
compare records by timestamp. -/
def tsLeB (a b : SimRecord) : Bool := decide (a.timestamp ≤ b.timestamp)

/-- The 48h extension step: `{...d, timestamp: new Date(new Date(d.timestamp).getTime() - 24*60*60*1000).toISOString()}` —
a copy of the record shifted back 24 hours, all other fields unchanged. -/
def shift24h (r : SimRecord) : SimRecord := { r with timestamp := r.timestamp - 86400000 }

/-- The `fullData` memo of useLiveSimulation.js: empty input yields an
empty dataset; otherwise sort by timestamp; if `historyHours <= 24`
return the sorted records, else prepend a copy of every record shifted
back 24h. -/
def fullData (inputData : List SimRecord) (historyHours : ℕ) : List SimRecord :=
  if inputData.isEmpty then []
  else
    let sorted := inputData.mergeSort tsLeB
    if historyHours ≤ 24 then sorted
    else sorted.map shift24h ++ sorted

/-- The bound `Math.min(...timestamps)` over the dataset (0 is a dummy for the
empty list, which the code guards against reaching). -/
def datasetStart : List SimRecord → ℤ
  | [] => 0
  | r :: rs => rs.foldl (fun m d => min m d.timestamp) r.timestamp

/-- The bound `Math.max(...timestamps)` over the dataset. -/
def datasetEnd : List SimRecord → ℤ
  | [] => 0
  | r :: rs => rs.foldl (fun m d => max m d.timestamp) r.timestamp

/-- The ref `startTimeRef.current`: set by the range-initialization effect only
when the dataset is non-empty, otherwise it stays `null`. -/
def startTimeRef (data : List SimRecord) : Option ℤ :=
  if data.isEmpty then none else some (datasetStart data)

/-- The ref `endTimeRef.current`, see `startTimeRef`. -/
def endTimeRef (data : List SimRecord) : Option ℤ :=
  if data.isEmpty then none else some (datasetEnd data)

/-- JS truthiness of a number-or-null ref: `null` and `0` are falsy. -/
def jsTruthy : Option ℤ → Bool
  | none => false
  | some v => decide (v ≠ 0)

/-- The timer-effect guard
`if (!fullData.length || !startTimeRef.current || !endTimeRef.current) return;`:
the tick loop starts only when all three are truthy. -/
def clockStarts (data : List SimRecord) : Bool :=
  !data.isEmpty && jsTruthy (startTimeRef data) && jsTruthy (endTimeRef data)

/-- One REPLAY tick:
`const msPerTick = (replaySpeed / 10) * 60 * 1000; now += msPerTick; if (now >= endTimeRef.current) now = startTimeRef.current;`. -/
def replayTick (startTime endTime replaySpeed now : ℚ) : ℚ :=
  let msPerTick := replaySpeed / 10 * 60 * 1000
  let next := now + msPerTick
  if endTime ≤ next then startTime else next

/-- Iterate `n` successive REPLAY ticks. -/
def replayTicks (startTime endTime replaySpeed : ℚ) : ℕ → ℚ → ℚ
  | 0, now => now
  | n + 1, now => replayTicks startTime endTime replaySpeed n (replayTick startTime endTime replaySpeed now)

/-- Start of the calendar day (local = UTC) containing epoch-ms `t`. -/
def dayStartMs (t : ℤ) : ℤ := t - t % 86400000

/-- The call `targetTime.setHours(realNow.getHours(), realNow.getMinutes(), realNow.getSeconds())`
on a copy of `base`: replace the hour/minute/second fields of `base`,
keeping its calendar date and its sub-second milliseconds. -/
def setHMS (base h m s : ℤ) : ℤ :=
  dayStartMs base + (h * 3600 + m * 60 + s) * 1000 + base % 1000

/-- The LIVE wraparound:
`if (now > endTimeRef.current) now -= 24*60*60*1000; if (now < startTimeRef.current) now += 24*60*60*1000;`
(two sequential conditionals). -/
def liveWrap (startTime endTime cand : ℤ) : ℤ :=
  let a := if endTime < cand then cand - 86400000 else cand
  if a < startTime then a + 86400000 else a

/-- One LIVE tick at wall-clock time-of-day `h:m:s`: build the candidate
on `endTime`'s calendar day, then apply the wraparound conditionals. -/
def liveTick (startTime endTime h m s : ℤ) : ℤ :=
  liveWrap startTime endTime (setHMS endTime h m s)

/-- The per-tick progress
`Math.min(100, Math.max(0, (elapsed / total) * 100))`, modelling the
IEEE-754 behaviour of the unguarded division when `total = 0`:
`0/0` is NaN and `Math.max`/`Math.min` propagate NaN (modelled `none`);
`elapsed/0` for nonzero `elapsed` is `±Infinity`, which the clamp maps
to `100` resp. `0`. -/
def progressJS (startTime endTime now : ℚ) : Option ℚ :=
  let total := endTime - startTime
  let elapsed := now - startTime
  if total = 0 then
    if elapsed = 0 then none
    else if 0 < elapsed then some 100
    else some 0
  else some (min 100 (max 0 (elapsed / total * 100)))

/-- The window slice `fullData.filter(d => new Date(d.timestamp).getTime() <= now)`. -/
def sliceData (data : List SimRecord) (now : ℚ) : List SimRecord :=
  data.filter (fun d => decide ((d.timestamp : ℚ) ≤ now))

/-- The helper `const noise = () => (Math.random() - 0.5) * 0.01;` applied to one
draw `r` of `Math.random()`. -/
def noise (r : ℚ) : ℚ := (r - 0.5) * 0.01

/-- The clamp `Math.max(0, Math.min(1, x))`. -/
def clamp01 (x : ℚ) : ℚ := max 0 (min 1 x)

/-- The LIVE noise-injection block applied to the cloned last point,
with one `Math.random()` draw per perturbed field, in source order.
The health/environment/GPS fields are guarded by JS truthiness
(`if (lastPoint.neck_temp_c)` etc.), i.e. a zero field is left alone. -/
def addNoise (p : SimRecord) (r1 r2 r3 r4 r5 r6 r7 r8 r9 : ℚ) : SimRecord :=
  { p with
    pct_lying := clamp01 (p.pct_lying + noise r1)
    pct_standing := clamp01 (p.pct_standing + noise r2)
    pct_walking := clamp01 (p.pct_walking + noise r3)
    pct_eating := clamp01 (p.pct_eating + noise r4)
    neck_temp_c := if p.neck_temp_c ≠ 0 then p.neck_temp_c + (r5 - 0.5) * 0.1 else p.neck_temp_c
    activity_index := if p.activity_index ≠ 0 then p.activity_index + (r6 - 0.5) * 2 else p.activity_index
    heat_index := if p.heat_index ≠ 0 then p.heat_index + (r7 - 0.5) * 0.5 else p.heat_index
    gps_lat := if p.gps_lat ≠ 0 then p.gps_lat + (r8 - 0.5) * 0.0001 else p.gps_lat
    gps_long := if p.gps_long ≠ 0 then p.gps_long + (r9 - 0.5) * 0.0001 else p.gps_long }

/-- The per-tick slice step: filter the window, and in LIVE mode replace
the last record of a non-empty window by its noise-perturbed clone
(`sliced = [...sliced.slice(0, -1), lastPoint]`). -/
def liveSlice (data : List SimRecord) (now : ℚ) (isLive : Bool)
    (r1 r2 r3 r4 r5 r6 r7 r8 r9 : ℚ) : List SimRecord :=
  let sliced := sliceData data now
  if isLive && decide (0 < sliced.length) then
    sliced.dropLast ++ [addNoise (sliced.getLastD default) r1 r2 r3 r4 r5 r6 r7 r8 r9]
  else sliced

/-- One `(animalId, timestamp, state)` sample consumed by GanttChart. -/
structure StateSample where
  animalId : ℕ
  timestamp : ℤ
  state : ℕ
deriving DecidableEq

instance : Inhabited StateSample := ⟨⟨0, 0, 0⟩⟩

/-- One emitted block `{state, start, end, animalId}` of GanttChart
(`end` is a Lean keyword, rendered `stop`). -/
structure Block where
  state : ℕ
  start : ℤ
  stop : ℤ
  animalId : ℕ
deriving DecidableEq

instance : Inhabited Block := ⟨⟨0, 0, 0, 0⟩⟩

/-- The GanttChart comparator
`if (a.animalId < b.animalId) return -1; if (a.animalId > b.animalId) return 1; return a.timestamp - b.timestamp;`
as a total preorder: lexicographic on (animalId, timestamp). -/
def sampleLeB (a b : StateSample) : Bool :=
  decide (a.animalId < b.animalId ∨ (a.animalId = b.animalId ∧ a.timestamp ≤ b.timestamp))

/-- The block-building loop of GanttChart over the samples after the
seed: break the open block when the state or the animal changes, else
extend its `end`; after the pass the open block is emitted. -/
def segLoop : Block → List StateSample → List Block
  | cur, [] => [cur]
  | cur, point :: rest =>
    if point.state ≠ cur.state ∨ point.animalId ≠ cur.animalId then
      cur :: segLoop ⟨point.state, point.timestamp, point.timestamp, point.animalId⟩ rest
    else
      segLoop { cur with stop := point.timestamp } rest

/-- The full segmentation of GanttChart: sort by (animalId, timestamp),
seed the open block with the first sample, then run `segLoop`.
Empty input yields no blocks. -/
def segment (dataPoints : List StateSample) : List Block :=
  match dataPoints.mergeSort sampleLeB with
  | [] => []
  | p :: rest => segLoop ⟨p.state, p.timestamp, p.timestamp, p.animalId⟩ rest

/-- The timestamp of the last sample of the group `p :: g`. -/
def getLastTs (p : StateSample) : List StateSample → ℤ
  | [] => p.timestamp
  | q :: g => getLastTs q g

/-- The block summarizing one maximal run of samples: the key and start
come from the first sample, the `end` from the last. -/
def blockOf : List StateSample → Block
  | [] => default
  | p :: g => ⟨p.state, p.timestamp, getLastTs p g, p.animalId⟩

/-- The partition of the sample stream `p :: l` into the maximal runs of
constant (state, animalId) that `segLoop` turns into blocks. -/
def runsFrom (p : StateSample) : List StateSample → List (List StateSample)
  | [] => [[p]]
  | q :: rest =>
    if q.state ≠ p.state ∨ q.animalId ≠ p.animalId then
      [p] :: runsFrom q rest
    else
      match runsFrom q rest with
      | [] => [[p]]
      | g :: gs => (p :: g) :: gs

end SDash

namespace SDash

/-- REPLAY tick result when the advance stays below `endTime`. -/
lemma replayTick_of_lt (s e sp now : ℚ) (h : now + sp / 10 * 60 * 1000 < e) :
    replayTick s e sp now = now + sp / 10 * 60 * 1000 := by
  simp only [replayTick]
  rw [if_neg (by linarith)]

/-- REPLAY tick result when the advance reaches or passes `endTime`. -/
lemma replayTick_of_ge (s e sp now : ℚ) (h : e ≤ now + sp / 10 * 60 * 1000) :
    replayTick s e sp now = s := by
  simp only [replayTick]
  rw [if_pos (by linarith)]

/-- C1 counterexample: on the dataset [T0, T0+10min] with T0 = 0 and a
3-minute per-tick advance (replaySpeed 30), four REPLAY ticks from T0
yield T0 itself (the overshoot resets to datasetStart), not the
claimed modular wrap T0+2min = 120000 ms. -/
theorem C1_counterexample :
    replayTicks 0 600000 30 4 0 = 0 ∧ replayTicks 0 600000 30 4 0 ≠ 120000 := by
  have e1 : replayTick 0 600000 30 0 = 180000 := by
    rw [replayTick_of_lt _ _ _ _ (by norm_num)]; norm_num
  have e2 : replayTick 0 600000 30 180000 = 360000 := by
    rw [replayTick_of_lt _ _ _ _ (by norm_num)]; norm_num
  have e3 : replayTick 0 600000 30 360000 = 540000 := by
    rw [replayTick_of_lt _ _ _ _ (by norm_num)]; norm_num
  have e4 : replayTick 0 600000 30 540000 = 0 := by
    rw [replayTick_of_ge _ _ _ _ (by norm_num)]
  have e : replayTicks 0 600000 30 4 0 = 0 := by
    simp only [replayTicks, e1, e2, e3, e4]
  rw [e]
  norm_num

/-- C1 (amended): each pre-wrap REPLAY tick advances virtualNow by
replaySpeed/10 minutes (3 minutes at replaySpeed 30), and on a dataset
[T0, T0+10min] four such ticks from T0 end at T0: when the advanced
time reaches or passes datasetEnd the clock resets to datasetStart
(in-range, but not a modular wrap). -/
theorem C1_thm (T0 : ℚ) :
    replayTick T0 (T0 + 600000) 30 T0 = T0 + 180000 ∧
    replayTicks T0 (T0 + 600000) 30 4 T0 = T0 := by
  have e1 : replayTick T0 (T0 + 600000) 30 T0 = T0 + 180000 := by
    rw [replayTick_of_lt _ _ _ _ (by linarith)]; ring
  have e2 : replayTick T0 (T0 + 600000) 30 (T0 + 180000) = T0 + 360000 := by
    rw [replayTick_of_lt _ _ _ _ (by linarith)]; ring
  have e3 : replayTick T0 (T0 + 600000) 30 (T0 + 360000) = T0 + 540000 := by
    rw [replayTick_of_lt _ _ _ _ (by linarith)]; ring
  have e4 : replayTick T0 (T0 + 600000) 30 (T0 + 540000) = T0 := by
    rw [replayTick_of_ge _ _ _ _ (by linarith)]
  refine ⟨e1, ?_⟩
  simp only [replayTicks, e1, e2, e3, e4]

/-- C7 counterexample: normalizing the empty record list with the
48-hour horizon returns the empty dataset normally — the code has no
InvalidInputError and nothing is thrown. -/
theorem C7_counterexample : fullData [] 48 = [] := rfl

/-- C7 (amended): for the empty record list and any horizon,
normalization returns the empty dataset without any error, and the
clock remains stopped: the timer-effect guard fails, so the tick loop
never starts. -/
theorem C7_thm (h : ℕ) :
    fullData [] h = [] ∧ clockStarts (fullData [] h) = false :=
  ⟨rfl, rfl⟩

/-- C9: on a single-record dataset (datasetStart = datasetEnd, here 0),
a REPLAY tick wraps virtualNow back to the start, and the unguarded
progress computation divides 0 by 0: the result is NaN (modelled
`none`), not the specified well-defined 100. -/
theorem C9_thm :
    replayTick 0 0 60 0 = 0 ∧ progressJS 0 0 (replayTick 0 0 60 0) = none := by
  have e : replayTick 0 0 60 0 = 0 := by
    rw [replayTick_of_ge _ _ _ _ (by norm_num)]
  rw [e]
  refine ⟨rfl, ?_⟩
  simp [progressJS]

/-- C4: segmenting entity 1's states [0,0,1,1,1,0] at timestamps
[0,10,20,30,40,50] yields exactly the blocks (state 0, 0–10),
(state 1, 20–40), (state 0, 50–50), in that order. -/
theorem C4_thm :
    segment [⟨1, 0, 0⟩, ⟨1, 10, 0⟩, ⟨1, 20, 1⟩, ⟨1, 30, 1⟩, ⟨1, 40, 1⟩, ⟨1, 50, 0⟩] =
      [⟨0, 0, 10, 1⟩, ⟨1, 20, 40, 1⟩, ⟨0, 50, 50, 1⟩] := by
  have hs : List.mergeSort [(⟨1, 0, 0⟩ : StateSample), ⟨1, 10, 0⟩, ⟨1, 20, 1⟩,
      ⟨1, 30, 1⟩, ⟨1, 40, 1⟩, ⟨1, 50, 0⟩] sampleLeB =
      [⟨1, 0, 0⟩, ⟨1, 10, 0⟩, ⟨1, 20, 1⟩, ⟨1, 30, 1⟩, ⟨1, 40, 1⟩, ⟨1, 50, 0⟩] :=
    List.mergeSort_of_sorted (by decide)
  simp only [segment, hs]
  decide

end SDash

namespace SDash

/-- C2 counterexample: dataset on day 0 from 11:00 to 12:00 (span 1h),
wall clock 13:00:00.  The candidate 13:00 is past datasetEnd, the first
conditional subtracts 24h (landing before datasetStart), the second
adds the 24h back: the final virtualNow is 13:00, outside
[datasetStart, datasetEnd]. -/
theorem C2_counterexample :
    liveTick 39600000 43200000 13 0 0 = 46800000 ∧
    ¬(liveTick 39600000 43200000 13 0 0 ≤ 43200000) := by
  decide

/-- C2 (amended): when datasetEnd falls on a whole second, the LIVE
candidate is exactly datasetEnd's calendar day combined with the
wall-clock time-of-day; and when the dataset spans at least 24 hours
the wrapped virtualNow lies within [datasetStart, datasetEnd].  (For
spans shorter than 24h the wrap can produce an out-of-range value, see
the counterexample.) -/
theorem C2_thm (startT endT h m s : ℤ) (hspan : 86400000 ≤ endT - startT)
    (hms : endT % 1000 = 0) (hh0 : 0 ≤ h) (hh1 : h < 24) (hm0 : 0 ≤ m) (hm1 : m < 60)
    (hs0 : 0 ≤ s) (hs1 : s < 60) :
    setHMS endT h m s = dayStartMs endT + (h * 3600 + m * 60 + s) * 1000 ∧
    startT ≤ liveTick startT endT h m s ∧ liveTick startT endT h m s ≤ endT := by
  refine ⟨by simp only [setHMS, hms, add_zero], ?_, ?_⟩ <;>
  · simp only [liveTick, liveWrap, setHMS, dayStartMs]
    split_ifs <;> omega

/-- Witness for C2: a 24h dataset [0, 86400000] and wall clock 05:00:00. -/
theorem C2_witness :
    setHMS 86400000 5 0 0 = dayStartMs 86400000 + (5 * 3600 + 0 * 60 + 0) * 1000 ∧
    0 ≤ liveTick 0 86400000 5 0 0 ∧ liveTick 0 86400000 5 0 0 ≤ 86400000 :=
  C2_thm 0 86400000 5 0 0 (by decide) (by decide) (by decide) (by decide) (by decide)
    (by decide) (by decide) (by decide)

/-- A REPLAY tick from any point at or after `startTime` lands in
[startTime, endTime) whenever startTime < endTime and the speed is
positive. -/
lemma replayTick_range (s e sp now : ℚ) (hse : s < e) (hsp : 0 < sp) (hnow : s ≤ now) :
    s ≤ replayTick s e sp now ∧ replayTick s e sp now < e := by
  by_cases hc : e ≤ now + sp / 10 * 60 * 1000
  · rw [replayTick_of_ge _ _ _ _ hc]
    exact ⟨le_refl s, hse⟩
  · push_neg at hc
    rw [replayTick_of_lt _ _ _ _ hc]
    have hpos : 0 < sp / 10 * 60 * 1000 := by positivity
    exact ⟨by linarith, hc⟩

/-- Iterated REPLAY ticks stay in [startTime, endTime). -/
lemma replayTicks_range (s e sp : ℚ) (hse : s < e) (hsp : 0 < sp) :
    ∀ (n : ℕ) (now : ℚ), s ≤ now → now < e →
      s ≤ replayTicks s e sp n now ∧ replayTicks s e sp n now < e
  | 0, _, h1, h2 => ⟨h1, h2⟩
  | n + 1, now, h1, _ => by
    have ht := replayTick_range s e sp now hse hsp h1
    simpa only [replayTicks] using replayTicks_range s e sp hse hsp n _ ht.1 ht.2

/-- C10: on a dataset with datasetStart < datasetEnd and any positive
replaySpeed, starting from virtualNow = datasetStart, after every
REPLAY tick virtualNow satisfies datasetStart ≤ virtualNow < datasetEnd,
so a record timestamped exactly at datasetEnd is never in the window. -/
theorem C10_thm (startT endT speed : ℚ) (n : ℕ) (h1 : startT < endT) (h2 : 0 < speed) :
    (startT ≤ replayTicks startT endT speed (n + 1) startT ∧
      replayTicks startT endT speed (n + 1) startT < endT) ∧
    ∀ data : List SimRecord,
      ∀ r ∈ sliceData data (replayTicks startT endT speed (n + 1) startT),
        (r.timestamp : ℚ) ≠ endT := by
  have ht := replayTick_range startT endT speed startT h1 h2 (le_refl _)
  have hr : startT ≤ replayTicks startT endT speed (n + 1) startT ∧
      replayTicks startT endT speed (n + 1) startT < endT := by
    simpa only [replayTicks] using replayTicks_range startT endT speed h1 h2 n _ ht.1 ht.2
  refine ⟨hr, ?_⟩
  intro data r hrm heq
  have hm := List.mem_filter.mp hrm
  have hle : (r.timestamp : ℚ) ≤ replayTicks startT endT speed (n + 1) startT :=
    of_decide_eq_true hm.2
  rw [heq] at hle
  linarith [hr.2]

/-- Witness for C10: dataset [0, 600000], speed 30, one tick. -/
theorem C10_witness :
    ((0 : ℚ) ≤ replayTicks 0 600000 30 1 0 ∧ replayTicks 0 600000 30 1 0 < 600000) ∧
    ∀ data : List SimRecord, ∀ r ∈ sliceData data (replayTicks 0 600000 30 1 0),
      (r.timestamp : ℚ) ≠ 600000 :=
  C10_thm 0 600000 30 0 (by norm_num) (by norm_num)

end SDash

namespace SDash

/-- Timestamp comparison is transitive. -/
lemma tsLeB_trans : ∀ a b c : SimRecord, tsLeB a b → tsLeB b c → tsLeB a c := by
  intro a b c hab hbc
  simp only [tsLeB, decide_eq_true_eq] at *
  omega

/-- Timestamp comparison is total. -/
lemma tsLeB_total : ∀ a b : SimRecord, tsLeB a b || tsLeB b a := by
  intro a b
  simp only [tsLeB, Bool.or_eq_true, decide_eq_true_eq]
  omega

/-- The sorted dataset is pairwise ordered by timestamp. -/
lemma mergeSort_ts_pairwise (l : List SimRecord) :
    List.Pairwise (fun a b : SimRecord => a.timestamp ≤ b.timestamp) (l.mergeSort tsLeB) :=
  (List.sorted_mergeSort tsLeB_trans tsLeB_total l).imp
    (fun h => by simpa [tsLeB] using h)

/-- A fold with `min` stays below its seed and every folded element. -/
lemma foldl_min_le (rs : List SimRecord) :
    ∀ m : ℤ, rs.foldl (fun m d => min m d.timestamp) m ≤ m ∧
      ∀ d ∈ rs, rs.foldl (fun m d => min m d.timestamp) m ≤ d.timestamp := by
  induction rs with
  | nil => intro m; exact ⟨le_refl m, by simp⟩
  | cons r rs ih =>
    intro m
    have h := ih (min m r.timestamp)
    refine ⟨le_trans h.1 (min_le_left _ _), ?_⟩
    intro d hd
    rcases List.mem_cons.mp hd with h1 | h1
    · subst h1
      exact le_trans h.1 (min_le_right _ _)
    · exact h.2 d h1

/-- A fold with `max` stays above its seed and every folded element. -/
lemma le_foldl_max (rs : List SimRecord) :
    ∀ m : ℤ, m ≤ rs.foldl (fun m d => max m d.timestamp) m ∧
      ∀ d ∈ rs, d.timestamp ≤ rs.foldl (fun m d => max m d.timestamp) m := by
  induction rs with
  | nil => intro m; exact ⟨le_refl m, by simp⟩
  | cons r rs ih =>
    intro m
    have h := ih (max m r.timestamp)
    refine ⟨le_trans (le_max_left _ _) h.1, ?_⟩
    intro d hd
    rcases List.mem_cons.mp hd with h1 | h1
    · subst h1
      exact le_trans (le_max_right _ _) h.1
    · exact h.2 d h1

/-- The value `datasetStart` is a lower bound of the timestamps. -/
lemma datasetStart_le_mem (l : List SimRecord) (x : SimRecord) (hx : x ∈ l) :
    datasetStart l ≤ x.timestamp := by
  cases l with
  | nil => cases hx
  | cons r rs =>
    rcases List.mem_cons.mp hx with h1 | h1
    · subst h1
      exact (foldl_min_le rs x.timestamp).1
    · exact (foldl_min_le rs r.timestamp).2 x h1

/-- The value `datasetEnd` is an upper bound of the timestamps. -/
lemma mem_le_datasetEnd (l : List SimRecord) (x : SimRecord) (hx : x ∈ l) :
    x.timestamp ≤ datasetEnd l := by
  cases l with
  | nil => cases hx
  | cons r rs =>
    rcases List.mem_cons.mp hx with h1 | h1
    · subst h1
      exact (le_foldl_max rs x.timestamp).1
    · exact (le_foldl_max rs r.timestamp).2 x h1

/-- On non-empty input with a horizon beyond 24h, `fullData` is the
shifted copy prepended to the sorted records. -/
lemma fullData48_eq (l : List SimRecord) (hne : l ≠ []) :
    fullData l 48 = (l.mergeSort tsLeB).map shift24h ++ l.mergeSort tsLeB := by
  have hie : l.isEmpty = false := by
    cases l with
    | nil => cases hne rfl
    | cons a as => rfl
  simp only [fullData, hie, Bool.false_eq_true, if_false]
  norm_num

/-- C5: for a non-empty dataset spanning exactly 24h, the 48h horizon
yields twice as many records; the i-th output record is the 24h-shifted
copy of the (i+N)-th; and the merged sequence is timestamp-sorted. -/
theorem C5_thm (l : List SimRecord) (hne : l ≠ [])
    (hspan : datasetEnd l - datasetStart l = 86400000) :
    (fullData l 48).length = 2 * l.length ∧
    (∀ i, i < l.length →
      (fullData l 48).getD i default = shift24h ((fullData l 48).getD (i + l.length) default)) ∧
    List.Pairwise (fun a b : SimRecord => a.timestamp ≤ b.timestamp) (fullData l 48) := by
  have hfd := fullData48_eq l hne
  have hlen : (l.mergeSort tsLeB).length = l.length := List.length_mergeSort l
  refine ⟨?_, ?_, ?_⟩
  · rw [hfd]
    simp [hlen]
    omega
  · intro i hi
    rw [hfd]
    have hmaplen : ((l.mergeSort tsLeB).map shift24h).length = l.length := by
      simp [hlen]
    rw [List.getD_append _ _ _ _ (by omega),
        List.getD_append_right _ _ _ _ (by omega)]
    have hsub : i + l.length - ((l.mergeSort tsLeB).map shift24h).length = i := by
      omega
    rw [hsub]
    simp only [List.getD_eq_getElem?_getD, List.getElem?_map]
    have hi2 : i < (l.mergeSort tsLeB).length := by omega
    have hget : (l.mergeSort tsLeB)[i]? = some ((l.mergeSort tsLeB).get ⟨i, hi2⟩) :=
      List.getElem?_eq_getElem hi2
    rw [hget]
    rfl
  · rw [hfd]
    rw [List.pairwise_append]
    refine ⟨?_, mergeSort_ts_pairwise l, ?_⟩
    · rw [List.pairwise_map]
      exact (mergeSort_ts_pairwise l).imp (fun h => by simp only [shift24h]; omega)
    · intro a ha b hb
      rcases List.mem_map.mp ha with ⟨x, hx, rfl⟩
      have hxl : x ∈ l := List.mem_mergeSort.mp hx
      have hbl : b ∈ l := List.mem_mergeSort.mp hb
      have h1 := mem_le_datasetEnd l x hxl
      have h2 := datasetStart_le_mem l b hbl
      simp only [shift24h]
      omega

/-- A concrete 24h-spanning two-record dataset. -/
def mkRec (t : ℤ) : SimRecord := ⟨t, 0, 0, 0, 0, 0, 0, 0, 0, 0⟩

def C5ex : List SimRecord := [mkRec 0, mkRec 86400000]

/-- Witness for C5 at the concrete dataset `C5ex`. -/
theorem C5_witness :
    (fullData C5ex 48).length = 2 * C5ex.length ∧
    (∀ i, i < C5ex.length →
      (fullData C5ex 48).getD i default = shift24h ((fullData C5ex 48).getD (i + C5ex.length) default)) ∧
    List.Pairwise (fun a b : SimRecord => a.timestamp ≤ b.timestamp) (fullData C5ex 48) :=
  C5_thm C5ex (List.cons_ne_nil _ _) (by decide)

end SDash

namespace SDash

/-- C6 counterexample: a dataset spanning 48 hours with horizonHours=48
(so horizonHours ≤ intrinsic span) is nevertheless doubled by the code,
because the code's guard is `historyHours <= 24`, not a comparison with
the intrinsic span: the output has 4 records, not the input's 2. -/
theorem C6_counterexample :
    (48 : ℤ) * 3600000 ≤ datasetEnd [mkRec 0, mkRec 172800000] - datasetStart [mkRec 0, mkRec 172800000] ∧
    (fullData [mkRec 0, mkRec 172800000] 48).length ≠ ([mkRec 0, mkRec 172800000] : List SimRecord).length := by
  constructor
  · decide
  · have hs : ([mkRec 0, mkRec 172800000] : List SimRecord).mergeSort tsLeB = [mkRec 0, mkRec 172800000] :=
      List.mergeSort_of_sorted (by decide)
    rw [fullData48_eq _ (List.cons_ne_nil _ _), hs]
    simp

/-- C6 (amended): for every non-empty record list and horizonHours at
most 24 (the code's actual non-extending condition), normalize returns
a permutation of the input (same cardinality, records unchanged),
sorted by timestamp, and stably: records with equal timestamps keep
their original relative order. -/
theorem C6_thm (l : List SimRecord) (hh : ℕ) (hne : l ≠ []) (h24 : hh ≤ 24) :
    (fullData l hh).Perm l ∧
    List.Pairwise (fun a b : SimRecord => a.timestamp ≤ b.timestamp) (fullData l hh) ∧
    ∀ t : ℤ, (fullData l hh).filter (fun r => decide (r.timestamp = t)) =
      l.filter (fun r => decide (r.timestamp = t)) := by
  have hie : l.isEmpty = false := by
    cases l with
    | nil => cases hne rfl
    | cons a as => rfl
  have hfd : fullData l hh = l.mergeSort tsLeB := by
    simp only [fullData, hie, Bool.false_eq_true, if_false, if_pos h24]
  rw [hfd]
  refine ⟨List.mergeSort_perm l tsLeB, mergeSort_ts_pairwise l, ?_⟩
  intro t
  have hsub : List.Sublist (l.filter (fun r => decide (r.timestamp = t))) l :=
    List.filter_sublist l
  have hpw : (l.filter (fun r => decide (r.timestamp = t))).Pairwise
      (fun a b => tsLeB a b = true) := by
    apply List.pairwise_of_forall_mem_list
    intro a ha b hb
    have h1 : a.timestamp = t := by
      simpa using (List.mem_filter.mp ha).2
    have h2 : b.timestamp = t := by
      simpa using (List.mem_filter.mp hb).2
    simp [tsLeB, h1, h2]
  have hsub2 : List.Sublist (l.filter (fun r => decide (r.timestamp = t)))
      (l.mergeSort tsLeB) :=
    List.sublist_mergeSort tsLeB_trans tsLeB_total hpw hsub
  have hsub3 := hsub2.filter (fun r => decide (r.timestamp = t))
  have hid : (l.filter (fun r => decide (r.timestamp = t))).filter
      (fun r => decide (r.timestamp = t)) = l.filter (fun r => decide (r.timestamp = t)) :=
    List.filter_eq_self.mpr (fun a ha => (List.mem_filter.mp ha).2)
  rw [hid] at hsub3
  have hperm : ((l.mergeSort tsLeB).filter (fun r => decide (r.timestamp = t))).Perm
      (l.filter (fun r => decide (r.timestamp = t))) :=
    (List.mergeSort_perm l tsLeB).filter _
  exact (hsub3.eq_of_length hperm.length_eq.symm).symm

/-- Witness for C6 at a concrete two-record dataset with horizon 24. -/
theorem C6_witness :
    (fullData C5ex 24).Perm C5ex ∧
    List.Pairwise (fun a b : SimRecord => a.timestamp ≤ b.timestamp) (fullData C5ex 24) ∧
    ∀ t : ℤ, (fullData C5ex 24).filter (fun r => decide (r.timestamp = t)) =
      C5ex.filter (fun r => decide (r.timestamp = t)) :=
  C6_thm C5ex 24 (List.cons_ne_nil _ _) (by decide)

end SDash

namespace SDash

/-- A scaled centered `Math.random()` draw is bounded by half the scale. -/
lemma draw_abs_le (r c : ℚ) (h0 : 0 ≤ r) (h1 : r < 1) (hc : 0 ≤ c) :
    |(r - 0.5) * c| ≤ c / 2 := by
  rw [abs_mul, abs_of_nonneg hc]
  have h2 : |r - 0.5| ≤ 1 / 2 := abs_le.mpr ⟨by linarith, by linarith⟩
  nlinarith [abs_nonneg (r - 0.5)]

/-- The clamp keeps its result in [0, 1]. -/
lemma clamp01_bounds (y : ℚ) : 0 ≤ clamp01 y ∧ clamp01 y ≤ 1 :=
  ⟨le_max_left _ _, max_le (by norm_num) (min_le_left _ _)⟩

/-- Clamping a small perturbation of a value already in [0, 1] moves it
by no more than the perturbation bound. -/
lemma clamp01_close (x d : ℚ) (hx0 : 0 ≤ x) (hx1 : x ≤ 1) (hd : |d| ≤ 1 / 200) :
    |clamp01 (x + d) - x| ≤ 1 / 200 := by
  rw [abs_le] at hd ⊢
  unfold clamp01
  rcases le_total 1 (x + d) with h | h
  · rw [min_eq_left h, max_eq_right (by norm_num : (0 : ℚ) ≤ 1)]
    constructor <;> linarith
  · rw [min_eq_right h]
    rcases le_total (x + d) 0 with h2 | h2
    · rw [max_eq_left h2]
      constructor <;> linarith
    · rw [max_eq_right h2]
      constructor <;> linarith

/-- Combined guarantee for one clamped percentage field. -/
lemma pct_noise_ok (x r : ℚ) (hx0 : 0 ≤ x) (hx1 : x ≤ 1) (hr0 : 0 ≤ r) (hr1 : r < 1) :
    0 ≤ clamp01 (x + noise r) ∧ clamp01 (x + noise r) ≤ 1 ∧
      |clamp01 (x + noise r) - x| ≤ 1 / 200 := by
  have hn : |noise r| ≤ 1 / 200 := by
    have h := draw_abs_le r 0.01 hr0 hr1 (by norm_num)
    rw [show (0.01 : ℚ) / 2 = 1 / 200 by norm_num] at h
    exact h
  exact ⟨(clamp01_bounds _).1, (clamp01_bounds _).2, clamp01_close x (noise r) hx0 hx1 hn⟩

/-- Deviation bound for one truthiness-guarded noisy field. -/
lemma guard_noise_abs (x r c : ℚ) (h0 : 0 ≤ r) (h1 : r < 1) (hc : 0 ≤ c) :
    |(if x ≠ 0 then x + (r - 0.5) * c else x) - x| ≤ c / 2 := by
  split_ifs
  · simpa using draw_abs_le r c h0 h1 hc
  · simpa using (by positivity : (0 : ℚ) ≤ c / 2)

/-- C8: in a non-empty LIVE window, the last record is replaced by its
noise-perturbed clone; every perturbed percentage field of that clone
stays in [0, 1], and every perturbed field deviates from its pre-noise
value by at most its documented bound: 0.005 for the percentage fields,
0.05 for neck temperature, 1 for the activity index, 0.25 for the heat
index, and 0.00005 for each GPS coordinate. -/
theorem C8_thm (data : List SimRecord) (now : ℚ) (r1 r2 r3 r4 r5 r6 r7 r8 r9 : ℚ)
    (hr1 : 0 ≤ r1 ∧ r1 < 1) (hr2 : 0 ≤ r2 ∧ r2 < 1) (hr3 : 0 ≤ r3 ∧ r3 < 1)
    (hr4 : 0 ≤ r4 ∧ r4 < 1) (hr5 : 0 ≤ r5 ∧ r5 < 1) (hr6 : 0 ≤ r6 ∧ r6 < 1)
    (hr7 : 0 ≤ r7 ∧ r7 < 1) (hr8 : 0 ≤ r8 ∧ r8 < 1) (hr9 : 0 ≤ r9 ∧ r9 < 1)
    (hw : sliceData data now ≠ [])
    (hl : 0 ≤ ((sliceData data now).getLastD default).pct_lying ∧
      ((sliceData data now).getLastD default).pct_lying ≤ 1)
    (hst : 0 ≤ ((sliceData data now).getLastD default).pct_standing ∧
      ((sliceData data now).getLastD default).pct_standing ≤ 1)
    (hwk : 0 ≤ ((sliceData data now).getLastD default).pct_walking ∧
      ((sliceData data now).getLastD default).pct_walking ≤ 1)
    (he : 0 ≤ ((sliceData data now).getLastD default).pct_eating ∧
      ((sliceData data now).getLastD default).pct_eating ≤ 1) :
    (liveSlice data now true r1 r2 r3 r4 r5 r6 r7 r8 r9).getLastD default =
      addNoise ((sliceData data now).getLastD default) r1 r2 r3 r4 r5 r6 r7 r8 r9 ∧
    ∀ p q : SimRecord, p = (sliceData data now).getLastD default →
      q = addNoise p r1 r2 r3 r4 r5 r6 r7 r8 r9 →
      (0 ≤ q.pct_lying ∧ q.pct_lying ≤ 1 ∧ |q.pct_lying - p.pct_lying| ≤ 1 / 200) ∧
      (0 ≤ q.pct_standing ∧ q.pct_standing ≤ 1 ∧ |q.pct_standing - p.pct_standing| ≤ 1 / 200) ∧
      (0 ≤ q.pct_walking ∧ q.pct_walking ≤ 1 ∧ |q.pct_walking - p.pct_walking| ≤ 1 / 200) ∧
      (0 ≤ q.pct_eating ∧ q.pct_eating ≤ 1 ∧ |q.pct_eating - p.pct_eating| ≤ 1 / 200) ∧
      |q.neck_temp_c - p.neck_temp_c| ≤ 1 / 20 ∧
      |q.activity_index - p.activity_index| ≤ 1 ∧
      |q.heat_index - p.heat_index| ≤ 1 / 4 ∧
      |q.gps_lat - p.gps_lat| ≤ 1 / 20000 ∧
      |q.gps_long - p.gps_long| ≤ 1 / 20000 := by
  constructor
  · have hlen : 0 < (sliceData data now).length := List.length_pos.mpr hw
    simp only [liveSlice, Bool.true_and, decide_eq_true hlen, if_true]
    rw [List.getLastD_concat]
  · intro p q hp hq
    subst hp
    subst hq
    simp only [addNoise]
    refine ⟨pct_noise_ok _ r1 hl.1 hl.2 hr1.1 hr1.2,
      pct_noise_ok _ r2 hst.1 hst.2 hr2.1 hr2.2,
      pct_noise_ok _ r3 hwk.1 hwk.2 hr3.1 hr3.2,
      pct_noise_ok _ r4 he.1 he.2 hr4.1 hr4.2, ?_, ?_, ?_, ?_, ?_⟩
    · have h := guard_noise_abs ((sliceData data now).getLastD default).neck_temp_c r5 0.1
        hr5.1 hr5.2 (by norm_num)
      rw [show (0.1 : ℚ) / 2 = 1 / 20 by norm_num] at h
      exact h
    · have h := guard_noise_abs ((sliceData data now).getLastD default).activity_index r6 2
        hr6.1 hr6.2 (by norm_num)
      rw [show (2 : ℚ) / 2 = 1 by norm_num] at h
      exact h
    · have h := guard_noise_abs ((sliceData data now).getLastD default).heat_index r7 0.5
        hr7.1 hr7.2 (by norm_num)
      rw [show (0.5 : ℚ) / 2 = 1 / 4 by norm_num] at h
      exact h
    · have h := guard_noise_abs ((sliceData data now).getLastD default).gps_lat r8 0.0001
        hr8.1 hr8.2 (by norm_num)
      rw [show (0.0001 : ℚ) / 2 = 1 / 20000 by norm_num] at h
      exact h
    · have h := guard_noise_abs ((sliceData data now).getLastD default).gps_long r9 0.0001
        hr9.1 hr9.2 (by norm_num)
      rw [show (0.0001 : ℚ) / 2 = 1 / 20000 by norm_num] at h
      exact h

end SDash

namespace SDash

/-- Witness for C8: window of one all-zero record at virtual time 0,
all nine random draws equal to 0. -/
theorem C8_witness :
    (liveSlice [mkRec 0] 0 true 0 0 0 0 0 0 0 0 0).getLastD default =
      addNoise ((sliceData [mkRec 0] 0).getLastD default) 0 0 0 0 0 0 0 0 0 ∧
    ∀ p q : SimRecord, p = (sliceData [mkRec 0] 0).getLastD default →
      q = addNoise p 0 0 0 0 0 0 0 0 0 →
      (0 ≤ q.pct_lying ∧ q.pct_lying ≤ 1 ∧ |q.pct_lying - p.pct_lying| ≤ 1 / 200) ∧
      (0 ≤ q.pct_standing ∧ q.pct_standing ≤ 1 ∧ |q.pct_standing - p.pct_standing| ≤ 1 / 200) ∧
      (0 ≤ q.pct_walking ∧ q.pct_walking ≤ 1 ∧ |q.pct_walking - p.pct_walking| ≤ 1 / 200) ∧
      (0 ≤ q.pct_eating ∧ q.pct_eating ≤ 1 ∧ |q.pct_eating - p.pct_eating| ≤ 1 / 200) ∧
      |q.neck_temp_c - p.neck_temp_c| ≤ 1 / 20 ∧
      |q.activity_index - p.activity_index| ≤ 1 ∧
      |q.heat_index - p.heat_index| ≤ 1 / 4 ∧
      |q.gps_lat - p.gps_lat| ≤ 1 / 20000 ∧
      |q.gps_long - p.gps_long| ≤ 1 / 20000 := by
  have hslice : sliceData [mkRec 0] 0 = [mkRec 0] := by
    simp [sliceData, mkRec]
  exact C8_thm [mkRec 0] 0 0 0 0 0 0 0 0 0 0
    ⟨le_refl 0, by norm_num⟩ ⟨le_refl 0, by norm_num⟩ ⟨le_refl 0, by norm_num⟩
    ⟨le_refl 0, by norm_num⟩ ⟨le_refl 0, by norm_num⟩ ⟨le_refl 0, by norm_num⟩
    ⟨le_refl 0, by norm_num⟩ ⟨le_refl 0, by norm_num⟩ ⟨le_refl 0, by norm_num⟩
    (by rw [hslice]; exact List.cons_ne_nil _ _)
    (by rw [hslice]; simp [mkRec])
    (by rw [hslice]; simp [mkRec])
    (by rw [hslice]; simp [mkRec])
    (by rw [hslice]; simp [mkRec])

end SDash

namespace SDash

/-- The Prop version of the GanttChart comparator order. -/
def sampleLe (a b : StateSample) : Prop :=
  a.animalId < b.animalId ∨ (a.animalId = b.animalId ∧ a.timestamp ≤ b.timestamp)

/-- The comparator order is transitive. -/
lemma sampleLeB_trans : ∀ a b c : StateSample, sampleLeB a b → sampleLeB b c → sampleLeB a c := by
  intro a b c h1 h2
  simp only [sampleLeB, decide_eq_true_eq] at *
  omega

/-- The comparator order is total. -/
lemma sampleLeB_total : ∀ a b : StateSample, sampleLeB a b || sampleLeB b a := by
  intro a b
  simp only [sampleLeB, Bool.or_eq_true, decide_eq_true_eq]
  omega

/-- The sorted sample list is pairwise ordered by (animalId, timestamp). -/
lemma mergeSort_sample_pairwise (l : List StateSample) :
    List.Pairwise sampleLe (l.mergeSort sampleLeB) :=
  (List.sorted_mergeSort sampleLeB_trans sampleLeB_total l).imp
    (fun h => by simpa [sampleLe, sampleLeB, decide_eq_true_eq] using h)

/-- Every `runsFrom` result is a nonempty list of groups whose first
group starts with the seed. -/
lemma runsFrom_shape : ∀ (l : List StateSample) (p : StateSample),
    ∃ g gs, runsFrom p l = (p :: g) :: gs := by
  intro l
  induction l with
  | nil => intro p; exact ⟨[], [], rfl⟩
  | cons q rest ih =>
    intro p
    by_cases hbr : q.state ≠ p.state ∨ q.animalId ≠ p.animalId
    · exact ⟨[], runsFrom q rest, by simp only [runsFrom, if_pos hbr]⟩
    · obtain ⟨g, gs, hg⟩ := ih q
      exact ⟨q :: g, gs, by simp only [runsFrom, if_neg hbr, hg]⟩

/-- Concatenating the groups of `runsFrom p l` recovers `p :: l`. -/
lemma runsFrom_flatten : ∀ (l : List StateSample) (p : StateSample),
    (runsFrom p l).flatten = p :: l := by
  intro l
  induction l with
  | nil => intro p; rfl
  | cons q rest ih =>
    intro p
    by_cases hbr : q.state ≠ p.state ∨ q.animalId ≠ p.animalId
    · simp only [runsFrom, if_pos hbr, List.flatten_cons, ih q]
      rfl
    · obtain ⟨g, gs, hg⟩ := runsFrom_shape rest q
      have hih := ih q
      rw [hg] at hih
      simp only [List.flatten_cons] at hih
      simp only [runsFrom, if_neg hbr, hg, List.flatten_cons, List.cons_append, hih]

/-- No group produced by `runsFrom` is empty. -/
lemma runsFrom_groups_ne_nil : ∀ (l : List StateSample) (p : StateSample)
    (g : List StateSample), g ∈ runsFrom p l → g ≠ [] := by
  intro l
  induction l with
  | nil =>
    intro p g hg
    simp only [runsFrom, List.mem_singleton] at hg
    subst hg
    exact List.cons_ne_nil _ _
  | cons q rest ih =>
    intro p g hg
    by_cases hbr : q.state ≠ p.state ∨ q.animalId ≠ p.animalId
    · simp only [runsFrom, if_pos hbr] at hg
      rcases List.mem_cons.mp hg with h | h
      · subst h; exact List.cons_ne_nil _ _
      · exact ih q g h
    · obtain ⟨g0, gs, hg0⟩ := runsFrom_shape rest q
      simp only [runsFrom, if_neg hbr, hg0] at hg
      rcases List.mem_cons.mp hg with h | h
      · subst h; exact List.cons_ne_nil _ _
      · exact ih q g (by rw [hg0]; exact List.mem_cons_of_mem _ h)

/-- Every sample in a group of `runsFrom` carries the group's key: the
animalId and state recorded in the group's block. -/
lemma runsFrom_mem_key : ∀ (l : List StateSample) (p : StateSample) (g : List StateSample),
    g ∈ runsFrom p l → ∀ x ∈ g,
      x.animalId = (blockOf g).animalId ∧ x.state = (blockOf g).state := by
  intro l
  induction l with
  | nil =>
    intro p g hg x hx
    simp only [runsFrom, List.mem_singleton] at hg
    subst hg
    simp only [List.mem_singleton] at hx
    subst hx
    exact ⟨rfl, rfl⟩
  | cons q rest ih =>
    intro p g hg x hx
    by_cases hbr : q.state ≠ p.state ∨ q.animalId ≠ p.animalId
    · simp only [runsFrom, if_pos hbr] at hg
      rcases List.mem_cons.mp hg with h | h
      · subst h
        simp only [List.mem_singleton] at hx
        subst hx
        exact ⟨rfl, rfl⟩
      · exact ih q g h x hx
    · obtain ⟨g0, gs, hg0⟩ := runsFrom_shape rest q
      simp only [runsFrom, if_neg hbr, hg0] at hg
      rcases List.mem_cons.mp hg with h | h
      · subst h
        rcases List.mem_cons.mp hx with h1 | h1
        · subst h1
          exact ⟨rfl, rfl⟩
        · have hmem : (q :: g0) ∈ runsFrom q rest := by
            rw [hg0]; exact List.mem_cons_self _ _
          have hk := ih q (q :: g0) hmem x h1
          push_neg at hbr
          simp only [blockOf] at hk ⊢
          exact ⟨hk.1.trans hbr.2, hk.2.trans hbr.1⟩
      · exact ih q g (by rw [hg0]; exact List.mem_cons_of_mem _ h) x hx

/-- Adjacent groups of `runsFrom` differ in state or in animal. -/
lemma runsFrom_chain_block : ∀ (l : List StateSample) (p : StateSample),
    List.Chain' (fun g1 g2 : List StateSample =>
      (blockOf g2).state ≠ (blockOf g1).state ∨ (blockOf g2).animalId ≠ (blockOf g1).animalId)
      (runsFrom p l) := by
  intro l
  induction l with
  | nil => intro p; simp [runsFrom]
  | cons q rest ih =>
    intro p
    by_cases hbr : q.state ≠ p.state ∨ q.animalId ≠ p.animalId
    · obtain ⟨g0, gs, hg0⟩ := runsFrom_shape rest q
      simp only [runsFrom, if_pos hbr, hg0]
      rw [List.chain'_cons]
      constructor
      · simpa [blockOf] using hbr
      · rw [← hg0]
        exact ih q
    · obtain ⟨g0, gs, hg0⟩ := runsFrom_shape rest q
      simp only [runsFrom, if_neg hbr, hg0]
      have hih := ih q
      rw [hg0] at hih
      push_neg at hbr
      cases gs with
      | nil => simp
      | cons g1 gs2 =>
        rw [List.chain'_cons] at hih ⊢
        refine ⟨?_, hih.2⟩
        simpa [blockOf, hbr.1, hbr.2] using hih.1

end SDash

namespace SDash

/-- The block loop computes exactly the blocks of the run partition:
for a current block with key (animalId `a`, state `st`), recorded start
`t0` and current end `t`, the emitted blocks are the head run's block
(with the recorded start) followed by the blocks of the later runs. -/
lemma segLoop_eq_runs : ∀ (l : List StateSample) (a st : ℕ) (t0 t : ℤ),
    ∃ g gs, runsFrom ⟨a, t, st⟩ l = (⟨a, t, st⟩ :: g) :: gs ∧
      segLoop ⟨st, t0, t, a⟩ l =
        (⟨st, t0, getLastTs ⟨a, t, st⟩ g, a⟩ : Block) :: gs.map blockOf := by
  intro l
  induction l with
  | nil =>
    intro a st t0 t
    exact ⟨[], [], rfl, rfl⟩
  | cons q rest ih =>
    intro a st t0 t
    by_cases hbr : q.state ≠ st ∨ q.animalId ≠ a
    · obtain ⟨g', gs', hr, hs⟩ := ih q.animalId q.state q.timestamp q.timestamp
      have hq : (⟨q.animalId, q.timestamp, q.state⟩ : StateSample) = q := rfl
      rw [hq] at hr hs
      refine ⟨[], runsFrom q rest, ?_, ?_⟩
      · simp only [runsFrom]
        rw [if_pos hbr]
      · simp only [segLoop]
        rw [if_pos hbr, hs, hr]
        simp only [List.map_cons, blockOf, getLastTs]
    · push_neg at hbr
      obtain ⟨g', gs', hr, hs⟩ := ih a st t0 q.timestamp
      have hq : (⟨a, q.timestamp, st⟩ : StateSample) = q := by
        cases q with
        | mk qa qt qs => simp_all
      rw [hq] at hr hs
      have hbr2 : ¬(q.state ≠ st ∨ q.animalId ≠ a) := by
        push_neg
        exact hbr
      refine ⟨q :: g', gs', ?_, ?_⟩
      · simp only [runsFrom]
        rw [if_neg hbr2, hr]
      · simp only [segLoop]
        rw [if_neg hbr2, hs]
        simp only [getLastTs]

/-- The function `segment` is the run partition of the sorted input, mapped to
blocks. -/
lemma segment_eq_runs (l : List StateSample) (p : StateSample) (rest : List StateSample)
    (h : l.mergeSort sampleLeB = p :: rest) :
    segment l = (runsFrom p rest).map blockOf := by
  obtain ⟨g, gs, hr, hs⟩ := segLoop_eq_runs rest p.animalId p.state p.timestamp p.timestamp
  have hq : (⟨p.animalId, p.timestamp, p.state⟩ : StateSample) = p := rfl
  rw [hq] at hr hs
  simp only [segment, h]
  rw [hs, hr]
  simp only [List.map_cons, blockOf]

end SDash

namespace SDash

/-- The value `getLastTs` is the timestamp of some member of the group. -/
lemma getLastTs_is_mem : ∀ (g : List StateSample) (y : StateSample),
    ∃ z, z ∈ y :: g ∧ z.timestamp = getLastTs y g := by
  intro g
  induction g with
  | nil => intro y; exact ⟨y, List.mem_cons_self _ _, rfl⟩
  | cons z g' ih =>
    intro y
    obtain ⟨w, hw, hwts⟩ := ih z
    exact ⟨w, List.mem_cons_of_mem _ hw, hwts⟩

/-- In a timestamp-sorted group, `getLastTs` bounds every member. -/
lemma le_getLastTs : ∀ (g : List StateSample) (y : StateSample),
    List.Pairwise (fun u v : StateSample => u.timestamp ≤ v.timestamp) (y :: g) →
    ∀ x ∈ y :: g, x.timestamp ≤ getLastTs y g := by
  intro g
  induction g with
  | nil =>
    intro y _ x hx
    simp only [List.mem_singleton] at hx
    subst hx
    exact le_refl _
  | cons z g' ih =>
    intro y hpw x hx
    have hpc := List.pairwise_cons.mp hpw
    simp only [getLastTs]
    rcases List.mem_cons.mp hx with h | h
    · subst h
      calc x.timestamp ≤ z.timestamp := hpc.1 z (List.mem_cons_self _ _)
        _ ≤ getLastTs z g' := ih z hpc.2 z (List.mem_cons_self _ _)
    · exact ih z hpc.2 x h

/-- C3: for every input sample list, the segmentation (i) emits, for
each entity, intervals in timestamp order (any earlier block of the
same animal ends no later than a later one starts), (ii) never emits
two consecutive blocks of one animal with the same state, and (iii)
partitions the input: the blocks are exactly the blocks of a list of
nonempty groups whose concatenation is a permutation of the input, each
sample lying inside its own group's block (matching animal, state, and
a timestamp between the block's start and end). -/
theorem C3_thm (l : List StateSample) :
    List.Pairwise (fun b1 b2 : Block => b1.animalId = b2.animalId → b1.stop ≤ b2.start)
      (segment l) ∧
    List.Chain' (fun b1 b2 : Block => b1.animalId = b2.animalId → b1.state ≠ b2.state)
      (segment l) ∧
    ∃ gs : List (List StateSample),
      gs.flatten.Perm l ∧ segment l = gs.map blockOf ∧
      ∀ g ∈ gs, g ≠ [] ∧ ∀ x ∈ g,
        x.animalId = (blockOf g).animalId ∧ x.state = (blockOf g).state ∧
        (blockOf g).start ≤ x.timestamp ∧ x.timestamp ≤ (blockOf g).stop := by
  rcases hsort : l.mergeSort sampleLeB with _ | ⟨p, rest⟩
  · have hl : l = [] := by
      have h := List.mergeSort_perm l sampleLeB
      rw [hsort] at h
      exact h.symm.eq_nil
    have hseg : segment l = [] := by
      simp [segment, hsort]
    subst hl
    exact ⟨by simp [hseg], by simp [hseg], [], by simp, by simp [hseg], by simp⟩
  · have hperm : ((p :: rest) : List StateSample).Perm l := by
      rw [← hsort]
      exact List.mergeSort_perm l sampleLeB
    have hpw : List.Pairwise sampleLe (p :: rest) := by
      rw [← hsort]
      exact mergeSort_sample_pairwise l
    have hseg := segment_eq_runs l p rest hsort
    have hflat := runsFrom_flatten rest p
    have hpwf : List.Pairwise sampleLe ((runsFrom p rest).flatten) := by
      rw [hflat]
      exact hpw
    have hdecomp := List.pairwise_flatten.mp hpwf
    have hkey := runsFrom_mem_key rest p
    have hnn := runsFrom_groups_ne_nil rest p
    have hgts : ∀ g ∈ runsFrom p rest,
        List.Pairwise (fun u v : StateSample => u.timestamp ≤ v.timestamp) g := by
      intro g hg
      refine (hdecomp.1 g hg).imp_of_mem ?_
      intro u v hu hv huv
      rcases huv with h | h
      · have h1 := (hkey g hg u hu).1
        have h2 := (hkey g hg v hv).1
        exact absurd h (by omega)
      · exact h.2
    refine ⟨?_, ?_, runsFrom p rest, by rw [hflat]; exact hperm, hseg, ?_⟩
    · rw [hseg, List.pairwise_map]
      refine hdecomp.2.imp_of_mem ?_
      intro g1 g2 hg1 hg2 hcross hanim
      rcases g1 with _ | ⟨y1, t1⟩
      · cases hnn _ hg1 rfl
      rcases g2 with _ | ⟨y2, t2⟩
      · cases hnn _ hg2 rfl
      obtain ⟨z, hz, hzts⟩ := getLastTs_is_mem t1 y1
      have hle := hcross z hz y2 (List.mem_cons_self _ _)
      have hza := (hkey _ hg1 z hz).1
      simp only [blockOf] at hza hanim ⊢
      rcases hle with h | h
      · exact absurd h (by omega)
      · rw [← hzts]
        exact h.2
    · rw [hseg, List.chain'_map]
      refine (runsFrom_chain_block rest p).imp ?_
      intro g1 g2 h12 hanim
      rcases h12 with h | h
      · exact fun hst => h hst.symm
      · exact absurd hanim (fun hh => h hh.symm)
    · intro g hg
      refine ⟨hnn g hg, ?_⟩
      intro x hx
      rcases g with _ | ⟨y, t⟩
      · cases hnn _ hg rfl
      have hk := hkey _ hg x hx
      have hp2 := hgts _ hg
      refine ⟨hk.1, hk.2, ?_, ?_⟩
      · simp only [blockOf]
        rcases List.mem_cons.mp hx with h | h
        · subst h
          exact le_refl _
        · exact (List.pairwise_cons.mp hp2).1 x h
      · simp only [blockOf]
        exact le_getLastTs t y hp2 x hx

end SDash
